import Mathlib

/-!
Verification of the `mctool` Minecraft server supervisor (`mctool.py`).

The development shallowly embeds the parts of the program the claims are
about: the JSON configuration store (`Config`), the process supervisor
(`is_running`, `start`, `stop`, `send_command` of `MinecraftServer`), the
backup manager (`get_world_folders`, `create_backup`,
`_cleanup_old_backups` of `BackupManager`) and the RAM validation of the
TUI handlers (`handle_install`, `handle_settings`).

External effects (the `screen` multiplexer, the filesystem, the clock) are
modelled as explicit oracle inputs, and side effects that matter to the
claims (sending keystrokes, terminating the session, creating the backup
directory, writing the archive) are returned as explicit effect traces.
-/

namespace Mctool

/-! ## Configuration store (`Config` in mctool.py)

Python's `Config` keeps `self.data`, a JSON object (an insertion-ordered
dictionary from string keys to JSON values).  We model JSON values by
`JValue` (only the shapes the configuration uses) and dictionaries by
ordered association lists with the same update semantics as Python dicts:
assigning to an existing key replaces the value in place, assigning a new
key appends it at the end. -/

inductive JValue where
  | vNull : JValue
  | vBool (b : Bool) : JValue
  | vInt (n : Int) : JValue
  | vStr (s : String) : JValue
  | vStrList (l : List String) : JValue
deriving DecidableEq, Repr

abbrev Dict := List (String × JValue)

/-- Python `data.get(k)` / `data[k]` lookup: first (unique) binding wins. -/
def dget : Dict → String → Option JValue
  | [], _ => none
  | p :: rest, k => if p.1 = k then some p.2 else dget rest k

/-- Python `data[k] = v`: replace in place if the key exists, else append. -/
def dset : Dict → String → JValue → Dict
  | [], k, v => [(k, v)]
  | p :: rest, k, v => if p.1 = k then (k, v) :: rest else p :: dset rest k v

/-- Python `base.update(upd)`: fold `dset` over the update's items in order. -/
def dupdate (base : Dict) : Dict → Dict
  | [] => base
  | p :: rest => dupdate (dset base p.1 p.2) rest

/-- Defaults from `Config._default_config` in mctool.py. -/
def default_config (server_dir : String) : Dict :=
  [("server_dir", .vStr server_dir),
   ("ram_gb", .vInt 4),
   ("current_version", .vNull),
   ("server_type", .vStr "vanilla"),
   ("auto_backup", .vBool true),
   ("max_backups", .vInt 5),
   ("command_history", .vStrList [])]

/-- Loading, `Config._load`: `none` stands for a missing file, an unparsable file
(`json.JSONDecodeError`) or an `IOError` — all three fall back to the
defaults wholesale.  A parsed store is merged over the defaults with
`defaults.update(data)`. -/
def config_load (server_dir : String) (store : Option Dict) : Dict :=
  match store with
  | some d => dupdate (default_config server_dir) d
  | none => default_config server_dir

/-- Reading, `Config.get(key)`; `Config.save` dumps all of `self.data`, so the
persisted store after `Config.set(k, v)` is exactly `dset data k v`. -/
def config_get (data : Dict) (k : String) : Option JValue := dget data k

/-- Writing, `Config.set(key, value)` (the in-memory update; `save` persists it whole). -/
def config_set (data : Dict) (k : String) (v : JValue) : Dict := dset data k v

/-! ## Command dispatch (`MinecraftServer.send_command`)

The running-ness probe and the `screen -X stuff` invocation are oracle
booleans; the command-history value of the configuration is the state
threaded through. -/

inductive CmdOutcome where
  | NotRunning : CmdOutcome
  | Sent : CmdOutcome
  | DispatchError : CmdOutcome
deriving DecidableEq, Repr

/-- Model of `MinecraftServer.send_command`: returns `(outcome, history')`.
`running` is the result of `is_running()`, `dispatchOk` whether the
`screen -X stuff` subprocess succeeds (`check=True` raises otherwise).
History (= the persisted `command_history` config entry) is written only
in the branch that actually calls `config.set`: a confirmed send of a
command not already present. -/
def send_command (running dispatchOk : Bool) (cmd : String)
    (history : List String) : CmdOutcome × List String :=
  if running = false then (.NotRunning, history)
  else if dispatchOk = false then (.DispatchError, history)
  else if cmd ∈ history then (.Sent, history)
  else (.Sent, (cmd :: history).take 20)

/-- Fold a sequence of `send_command` calls over a starting history; each
call is a triple `(running, dispatchOk, cmd)`. -/
def runCommands (calls : List (Bool × Bool × String))
    (history : List String) : List String :=
  calls.foldl (fun h c => (send_command c.1 c.2.1 c.2.2 h).2) history

/-! ## Session detection (`MinecraftServer.is_running`)

`is_running` runs `screen -ls minecraft` and returns
`SCREEN_SESSION_NAME in result.stdout` — a plain substring test on the
listing output; a `FileNotFoundError` (the `screen` binary is absent)
yields `False`.  The listing is modelled as `Option String`
(`none` = binary absent, `some out` = the captured stdout). -/

def sessionName : String := "minecraft"

/-- Whether `hay` starts with `needle`, on character lists (helper for the substring
test below). -/
def startsWithChars : List Char → List Char → Bool
  | _, [] => true
  | [], _ :: _ => false
  | a :: as, b :: bs => a == b && startsWithChars as bs

/-- Python's `needle in hay` substring test, on character lists. -/
def containsChars (needle : List Char) : List Char → Bool
  | [] => needle.isEmpty
  | c :: rest => startsWithChars (c :: rest) needle || containsChars needle rest

/-- Python's `needle in hay` for strings. -/
def strContains (hay needle : String) : Bool := containsChars needle.data hay.data

/-- Model of `MinecraftServer.is_running`. -/
def is_running (listing : Option String) : Bool :=
  match listing with
  | none => false
  | some out => strContains out sessionName

/-! ## Stopping (`MinecraftServer.stop`) -/

inductive StopOutcome where
  | NotRunning : StopOutcome
  | Stopped : StopOutcome
  | StopTimeout : StopOutcome
  | Terminated : StopOutcome
  | StopFailed : StopOutcome
deriving DecidableEq, Repr

/-- The dispatch side effects `stop` can issue on the multiplexer. -/
inductive Effect where
  | sendStopKeys : Effect
  | terminate : Effect
deriving DecidableEq, Repr

/-- Oracle for one run of `stop`: the initial `is_running()` legality
check, whether `screen -X stuff` / `screen -X quit` succeed, and the
result of the `is_running()` poll at loop iteration `i`. -/
structure StopEnv where
  running : Bool
  sendOk : Bool
  termOk : Bool
  poll : Nat → Bool

/-- The graceful wait loop `for i in range(30): time.sleep(1); if not
self.is_running(): return ...` — returns the outcome together with the
number of polls actually performed.  `i` is the index of the next poll,
`fuel` the iterations remaining. -/
def stopLoop (poll : Nat → Bool) : Nat → Nat → StopOutcome × Nat
  | _, 0 => (.StopTimeout, 0)
  | i, fuel + 1 =>
    if poll i then
      let r := stopLoop poll (i + 1) fuel
      (r.1, r.2 + 1)
    else (.Stopped, 1)

/-- Model of `MinecraftServer.stop(graceful)`: returns the outcome, the number of
polls of the wait loop, and the trace of dispatch effects issued. -/
def stop (env : StopEnv) (graceful : Bool) : StopOutcome × Nat × List Effect :=
  if env.running = false then (.NotRunning, 0, [])
  else if graceful then
    if env.sendOk then
      let r := stopLoop env.poll 0 30
      (r.1, r.2, [.sendStopKeys])
    else (.StopFailed, 0, [.sendStopKeys])
  else
    if env.termOk then (.Terminated, 0, [.terminate])
    else (.StopFailed, 0, [.terminate])

/-! ## Starting (`MinecraftServer.start`) -/

inductive StartOutcome where
  | AlreadyRunning : StartOutcome
  | NotInstalled : StartOutcome
  | ScreenMissing : StartOutcome
  | LaunchFailed : StartOutcome
  | Started : StartOutcome
  | CrashedOnStart (logTail : List String) : StartOutcome
  | ExitedImmediately : StartOutcome
deriving DecidableEq, Repr

/-- Oracle for one run of `start`: the initial `is_running()` check,
whether `server.jar` exists, the `screen -dmS` invocation result
(`none` = `FileNotFoundError`, `some rc` = its return code), the
`is_running()` re-query after the 1s settle sleep, and the log file
contents (`none` = `server.log` absent, `some lines` = its lines, as
returned by `readlines`, trailing newlines included). -/
structure StartEnv where
  running : Bool
  jarExists : Bool
  launchRc : Option Int
  runningAfterSettle : Bool
  logLines : Option (List String)

/-- Python `lines[-10:]`. -/
def lastTen (lines : List String) : List String :=
  lines.drop (lines.length - 10)

/-- Python `s.strip()` on character lists: drop whitespace from both ends. -/
def stripChars (l : List Char) : List Char :=
  ((l.dropWhile Char.isWhitespace).reverse.dropWhile Char.isWhitespace).reverse

/-- Truthiness of Python `s.strip()` negated: whether the string is blank
(empty once surrounding whitespace is stripped). -/
def strBlank (s : String) : Bool := (stripChars s.data).isEmpty

/-- Model of `MinecraftServer.start`. -/
def start (env : StartEnv) : StartOutcome :=
  if env.running then .AlreadyRunning
  else if env.jarExists = false then .NotInstalled
  else
    match env.launchRc with
    | none => .ScreenMissing
    | some rc =>
      if rc ≠ 0 then .LaunchFailed
      else if env.runningAfterSettle then .Started
      else
        match env.logLines with
        | some lines =>
          if strBlank (String.join (lastTen lines)) = false then
            .CrashedOnStart (lastTen lines)
          else .ExitedImmediately
        | none => .ExitedImmediately

/-! ## Backup manager (`BackupManager`) -/

/-- One entry of `os.listdir(self.server_dir)`: its name, whether it is a
directory, and whether it contains a root-level `level.dat`. -/
structure DirEntry where
  name : String
  isDir : Bool
  hasLevelDat : Bool
deriving DecidableEq, Repr

/-- Model of `BackupManager.get_world_folders`: immediate subdirectories holding a
root-level `level.dat`, in filesystem listing order. -/
def get_world_folders (entries : List DirEntry) : List String :=
  (entries.filter (fun e => e.isDir && e.hasLevelDat)).map (fun e => e.name)

/-- Filesystem side effects of `create_backup`. -/
inductive BackupEffect where
  | makeBackupDir : BackupEffect
  | writeArchive (name : String) : BackupEffect
  | pruneOld : BackupEffect
deriving DecidableEq, Repr

/-- Model of `BackupManager.create_backup`: `entries` is the server-directory
listing, `version` the `current_version` config value, `timestamp` the
formatted current time, `tarOk` whether the `tarfile` write succeeds
(a `TarError`/`IOError` aborts after the directory was made and the
partial archive file was opened). -/
def create_backup (entries : List DirEntry) (version timestamp : String)
    (tarOk : Bool) : (Bool × String) × List BackupEffect :=
  let worlds := get_world_folders entries
  if worlds.isEmpty then ((false, "No world folders found to backup"), [])
  else
    let backupName := "backup_" ++ version ++ "_" ++ timestamp ++ ".tar.gz"
    if tarOk then
      ((true, "Backup created: " ++ backupName),
       [.makeBackupDir, .writeArchive backupName, .pruneOld])
    else
      ((false, "Backup failed"), [.makeBackupDir, .writeArchive backupName])

/-! ## Retention pruning (`BackupManager._cleanup_old_backups`)

A backup archive on disk is `(mtime, name)`.  The Python code collects
`(os.path.getmtime(p), p)` tuples, sorts them with
`backups.sort(reverse=True)` — descending lexicographic tuple order —
and removes `backups[max_backups:]`. -/

abbrev BFile := Nat × String

/-- Descending tuple order used by `backups.sort(reverse=True)`:
`a` sorts no later than `b` iff `a ≥ b` as `(mtime, name)` tuples. -/
def descBefore (a b : BFile) : Bool :=
  b.1 < a.1 || (b.1 == a.1 && !decide (a.2 < b.2))

/-- Insertion step of the descending sort. -/
def insertDesc (a : BFile) : List BFile → List BFile
  | [] => [a]
  | b :: l => if descBefore a b then a :: b :: l else b :: insertDesc a l

/-- The descending sort `backups.sort(reverse=True)` (as an insertion
sort; it agrees with Python's stable sort because the order is total and
full tuples never tie — names embed distinct timestamps). -/
def sortDesc : List BFile → List BFile
  | [] => []
  | a :: l => insertDesc a (sortDesc l)

/-- The archives `_cleanup_old_backups` keeps on disk: the first
`max_backups` after sorting descending. -/
def cleanupKept (maxBackups : Nat) (files : List BFile) : List BFile :=
  (sortDesc files).take maxBackups

/-- The archives `_cleanup_old_backups` removes: `backups[max_backups:]`. -/
def cleanupDeleted (maxBackups : Nat) (files : List BFile) : List BFile :=
  (sortDesc files).drop maxBackups

/-- A run of successful `create_backup` calls: each call adds its new
archive to the backup directory and then prunes with retention `k`.
`cs` lists the created archives in creation (chronological) order. -/
def backupRun (k : Nat) : List BFile → List BFile → List BFile
  | [], files => files
  | b :: rest, files => backupRun k rest (cleanupKept k (b :: files))

/-! ## RAM validation (`TUI.handle_install`, `TUI.handle_settings`)

`handle_install` parses the RAM input and raises/returns an error before
any install step when `ram_gb < 1 or ram_gb > 64`; `handle_settings`
writes `ram_gb` only when `1 <= ram <= 64` and otherwise leaves the
configuration untouched. -/

inductive RamGate where
  | proceed (ramGb : Int) : RamGate
  | invalidRam : RamGate
deriving DecidableEq, Repr

/-- The RAM check of `TUI.handle_install` on an already-parsed integer:
`if ram_gb < 1 or ram_gb > 64: raise ValueError()` shows the error and
returns before `install` is called, so nothing is mutated. -/
def handle_install_ram (r : Int) : RamGate :=
  if r < 1 ∨ r > 64 then .invalidRam else .proceed r

/-- The RAM branch of `TUI.handle_settings` on an already-parsed integer:
`if 1 <= ram <= 64: self.config.set("ram_gb", ram)`. -/
def handle_settings_ram (r : Int) (data : Dict) : Dict :=
  if 1 ≤ r ∧ r ≤ 64 then dset data "ram_gb" (.vInt r) else data

/-- Sortedness in the descending tuple order (what `sortDesc` produces and
preserves). -/
def SortedDesc (l : List BFile) : Prop :=
  l.Pairwise (fun x y => descBefore x y = true)

/-! # Theorems -/

/-! ## Dictionary lemmas -/

theorem dget_dset_self (d : Dict) (k : String) (v : JValue) :
    dget (dset d k v) k = some v := by
  induction d with
  | nil => simp [dset, dget]
  | cons p rest ih =>
    by_cases h : p.1 = k
    · simp [dset, h, dget]
    · simp [dset, h, dget, ih]

theorem dget_dset_ne (d : Dict) (k k' : String) (v : JValue) (h : k' ≠ k) :
    dget (dset d k v) k' = dget d k' := by
  have hkk : ¬ k = k' := fun e => h e.symm
  induction d with
  | nil =>
    simp only [dset, dget]
    rw [if_neg hkk]
  | cons p rest ih =>
    by_cases hpk : p.1 = k
    · have hp : ¬ p.1 = k' := by rw [hpk]; exact hkk
      simp only [dset, if_pos hpk, dget]
      rw [if_neg hkk, if_neg hp]
    · simp only [dset, if_neg hpk, dget]
      by_cases hpk' : p.1 = k' <;> simp [hpk', ih]

theorem mem_dset_self (d : Dict) (k : String) (v : JValue) :
    (k, v) ∈ dset d k v := by
  induction d with
  | nil => simp [dset]
  | cons p rest ih =>
    by_cases h : p.1 = k <;> simp [dset, h, ih]

theorem mem_keys_dset (d : Dict) (k k' : String) (v : JValue)
    (h : k' ∈ (dset d k v).map Prod.fst) :
    k' ∈ d.map Prod.fst ∨ k' = k := by
  induction d with
  | nil => simpa [dset] using h
  | cons p rest ih =>
    by_cases hpk : p.1 = k
    · simp only [dset, if_pos hpk, List.map_cons, List.mem_cons] at h
      rcases h with h | h
      · exact Or.inr h
      · exact Or.inl (by simp [h])
    · simp only [dset, if_neg hpk, List.map_cons, List.mem_cons] at h
      rcases h with h | h
      · exact Or.inl (by simp [h])
      · rcases ih h with h' | h'
        · exact Or.inl (by simp [h'])
        · exact Or.inr h'

theorem dset_keys_nodup (d : Dict) (k : String) (v : JValue) :
    (d.map Prod.fst).Nodup → ((dset d k v).map Prod.fst).Nodup := by
  induction d with
  | nil => intro _; simp [dset]
  | cons p rest ih =>
    intro h
    rw [List.map_cons, List.nodup_cons] at h
    by_cases hpk : p.1 = k
    · subst hpk
      simp only [dset, eq_self_iff_true, if_true, List.map_cons, List.nodup_cons]
      exact ⟨h.1, h.2⟩
    · simp only [dset, if_neg hpk, List.map_cons, List.nodup_cons]
      refine ⟨?_, ih h.2⟩
      intro hmem
      rcases mem_keys_dset rest k p.1 v hmem with h' | h'
      · exact h.1 h'
      · exact hpk h'

theorem dupdate_get_not_mem (upd : Dict) : ∀ (base : Dict) (k : String),
    (∀ p ∈ upd, p.1 ≠ k) → dget (dupdate base upd) k = dget base k := by
  induction upd with
  | nil => intro base k _; rfl
  | cons p rest ih =>
    intro base k h
    have h1 : p.1 ≠ k := h p (by simp)
    rw [dupdate, ih _ k (fun q hq => h q (by simp [hq]))]
    exact dget_dset_ne base p.1 k p.2 (Ne.symm h1)

theorem dupdate_get_mem (upd : Dict) : ∀ (base : Dict) (k : String) (v : JValue),
    (upd.map Prod.fst).Nodup → (k, v) ∈ upd →
    dget (dupdate base upd) k = some v := by
  induction upd with
  | nil => intro _ _ _ _ h; cases h
  | cons p rest ih =>
    intro base k v hnd hmem
    rw [List.map_cons, List.nodup_cons] at hnd
    rw [dupdate]
    rcases List.mem_cons.mp hmem with heq | hmem'
    · subst heq
      have hrest : ∀ q ∈ rest, q.1 ≠ k := by
        intro q hq hcontra
        have hm : q.1 ∈ rest.map Prod.fst := List.mem_map_of_mem Prod.fst hq
        rw [hcontra] at hm
        exact hnd.1 hm
      rw [dupdate_get_not_mem rest _ k hrest]
      exact dget_dset_self base k v
    · exact ih _ k v hnd.2 hmem'

/-- C8: a value written via `Config.set` is returned by a subsequent `get`
on a freshly constructed `Config` pointed at the same directory; an
unparsable stored file makes `_load` fall back to the defaults wholesale;
keys missing from a parsed store fall back to the documented defaults
(and, symmetrically, every key surviving in the store — such as one that
was explicitly set before — keeps its stored value, which is the first
conjunct applied to the surviving store). -/
theorem config_roundtrip (dir : String) (d : Dict) (k : String) (v : JValue)
    (hnd : (d.map Prod.fst).Nodup) :
    config_get (config_load dir (some (config_set d k v))) k = some v ∧
    config_load dir none = default_config dir ∧
    (∀ k', (∀ p ∈ d, p.1 ≠ k') →
      config_get (config_load dir (some d)) k' = config_get (default_config dir) k') := by
  refine ⟨?_, rfl, ?_⟩
  · exact dupdate_get_mem (config_set d k v) (default_config dir) k v
      (dset_keys_nodup d k v hnd) (mem_dset_self d k v)
  · intro k' h
    exact dupdate_get_not_mem d (default_config dir) k' h

theorem config_roundtrip_witness :
    config_get (config_load "/srv/minecraft"
      (some (config_set [("ram_gb", JValue.vInt 16)] "current_version"
        (JValue.vStr "1.21.4")))) "current_version" = some (JValue.vStr "1.21.4") :=
  (config_roundtrip "/srv/minecraft" [("ram_gb", JValue.vInt 16)] "current_version"
    (JValue.vStr "1.21.4") (by decide)).1

/-! ## Command dispatch theorems -/

/-- C3: for every command string, `send_command` leaves the command
history (and hence the persisted configuration — `config.set` is only
called in the insert branch) unchanged and returns an error both when the
server is not running (`NotRunning`, without dispatching) and when the
multiplexer dispatch fails (`DispatchError`); more generally, history
changes only on a confirmed successful send. -/
theorem send_command_error_paths (running dispatchOk : Bool) (cmd : String)
    (history : List String) :
    (running = false →
      send_command running dispatchOk cmd history = (.NotRunning, history)) ∧
    (running = true → dispatchOk = false →
      send_command running dispatchOk cmd history = (.DispatchError, history)) ∧
    ((send_command running dispatchOk cmd history).1 ≠ .Sent →
      (send_command running dispatchOk cmd history).2 = history) := by
  refine ⟨fun h => by simp [send_command, h],
          fun h1 h2 => by simp [send_command, h1, h2], ?_⟩
  intro h
  cases running with
  | false => simp [send_command]
  | true =>
    cases dispatchOk with
    | false => simp [send_command]
    | true =>
      exfalso
      apply h
      by_cases hm : cmd ∈ history <;> simp [send_command, hm]

theorem send_command_error_paths_witness :
    send_command false true "say hi" ["list"] = (CmdOutcome.NotRunning, ["list"]) :=
  (send_command_error_paths false true "say hi" ["list"]).1 rfl

/-- C4 counterexample: sending a command already present in the history
does NOT move it to the front — the code only updates history when
`command not in history`, so a successful re-send leaves the history
exactly as it was. -/
theorem send_command_resend_counterexample :
    (send_command true true "b" ["a", "b"]).2 = ["a", "b"] ∧
    (send_command true true "b" ["a", "b"]).2 ≠ ["b", "a"] := by decide

/-- C4 (amended): for every command string already present in the
history, a successful `send_command` of that string leaves the history
entirely unchanged — the length does not grow and no duplicate is
created, but the entry stays at its current position instead of moving
to the front. -/
theorem send_command_resend_leaves_history (cmd : String) (history : List String)
    (h : cmd ∈ history) :
    send_command true true cmd history = (.Sent, history) := by
  simp [send_command, h]

theorem send_command_resend_leaves_history_witness :
    send_command true true "b" ["a", "b"] = (CmdOutcome.Sent, ["a", "b"]) :=
  send_command_resend_leaves_history "b" ["a", "b"] (by decide)

theorem send_command_invariant_step (running dispatchOk : Bool) (cmd : String)
    (history : List String) (hnd : history.Nodup) (hlen : history.length ≤ 20) :
    (send_command running dispatchOk cmd history).2.Nodup ∧
    (send_command running dispatchOk cmd history).2.length ≤ 20 := by
  unfold send_command
  split
  · exact ⟨hnd, hlen⟩
  · split
    · exact ⟨hnd, hlen⟩
    · split
      · exact ⟨hnd, hlen⟩
      · rename_i hrun hok hmem
        constructor
        · exact List.Nodup.sublist (List.take_sublist 20 (cmd :: history))
            (List.nodup_cons.mpr ⟨hmem, hnd⟩)
        · exact List.length_take_le 20 (cmd :: history)

theorem runCommands_invariant_aux (calls : List (Bool × Bool × String)) :
    ∀ h0 : List String, h0.Nodup → h0.length ≤ 20 →
      (runCommands calls h0).Nodup ∧ (runCommands calls h0).length ≤ 20 := by
  induction calls with
  | nil => intro h0 hnd hlen; exact ⟨hnd, hlen⟩
  | cons c rest ih =>
    intro h0 hnd hlen
    have step := send_command_invariant_step c.1 c.2.1 c.2.2 h0 hnd hlen
    exact ih _ step.1 step.2

/-- C5: starting from a duplicate-free history of length at most 20,
after any finite sequence of `send_command` calls the history contains no
duplicates and its length is at most 20; and sending "x" three times in a
row on an initially empty history while the server is running yields the
history `["x"]` of length 1. -/
theorem commandHistory_invariant (calls : List (Bool × Bool × String))
    (h0 : List String) (hnd : h0.Nodup) (hlen : h0.length ≤ 20) :
    (runCommands calls h0).Nodup ∧ (runCommands calls h0).length ≤ 20 ∧
    runCommands [(true, true, "x"), (true, true, "x"), (true, true, "x")] [] = ["x"] :=
  ⟨(runCommands_invariant_aux calls h0 hnd hlen).1,
   (runCommands_invariant_aux calls h0 hnd hlen).2, by decide⟩

theorem commandHistory_invariant_witness :
    (runCommands [(true, true, "say hi"), (false, true, "stop")] []).Nodup ∧
    (runCommands [(true, true, "say hi"), (false, true, "stop")] []).length ≤ 20 :=
  ⟨(commandHistory_invariant [(true, true, "say hi"), (false, true, "stop")] []
      (by decide) (by decide)).1,
   (commandHistory_invariant [(true, true, "say hi"), (false, true, "stop")] []
      (by decide) (by decide)).2.1⟩

/-! ## Stop theorems -/

theorem stopLoop_all_running (poll : Nat → Bool) :
    ∀ (fuel i : Nat), (∀ j, j < fuel → poll (i + j) = true) →
      stopLoop poll i fuel = (.StopTimeout, fuel) := by
  intro fuel
  induction fuel with
  | zero => intro i _; rfl
  | succ n ih =>
    intro i h
    have h0 : poll i = true := by simpa using h 0 (Nat.succ_pos n)
    have h' : ∀ j, j < n → poll (i + 1 + j) = true := by
      intro j hj
      have := h (j + 1) (by omega)
      rwa [show i + (j + 1) = i + 1 + j by omega] at this
    simp only [stopLoop, h0, if_true, ih (i + 1) h']

theorem stopLoop_first_stop (poll : Nat → Bool) :
    ∀ (fuel i j : Nat), j < fuel → poll (i + j) = false →
      (∀ m, m < j → poll (i + m) = true) →
      stopLoop poll i fuel = (.Stopped, j + 1) := by
  intro fuel
  induction fuel with
  | zero => intro i j hj _ _; exact absurd hj (Nat.not_lt_zero j)
  | succ n ih =>
    intro i j hj hfalse hbefore
    cases j with
    | zero =>
      have h0 : poll i = false := by simpa using hfalse
      simp [stopLoop, h0]
    | succ j' =>
      have h0 : poll i = true := by simpa using hbefore 0 (Nat.succ_pos j')
      have hf' : poll (i + 1 + j') = false := by
        rwa [show i + (j' + 1) = i + 1 + j' by omega] at hfalse
      have hb' : ∀ m, m < j' → poll (i + 1 + m) = true := by
        intro m hm
        have := hbefore (m + 1) (by omega)
        rwa [show i + (m + 1) = i + 1 + m by omega] at this
      simp only [stopLoop, h0, if_true, ih (i + 1) j' (by omega) hf' hb']

/-- C1: for every run of `stop(graceful=True)` entered while the server is
Running (and the stop keystrokes dispatch successfully), the supervisor
sends the stop keystroke sequence and then polls `is_running` for at most
30 iterations, returning success at the first poll that observes Stopped
(having performed exactly `j + 1` polls when iteration `j` is the first to
observe Stopped); if all 30 polls still observe Running it returns the
30-second timeout failure after exactly 30 polls, and the graceful path
never issues a terminate (`screen -X quit`) call as a fallback. -/
theorem stop_graceful_spec (env : StopEnv) (hrun : env.running = true)
    (hsend : env.sendOk = true) :
    ((∀ i, i < 30 → env.poll i = true) →
      stop env true = (.StopTimeout, 30, [Effect.sendStopKeys])) ∧
    (∀ j, j < 30 → env.poll j = false → (∀ i, i < j → env.poll i = true) →
      stop env true = (.Stopped, j + 1, [Effect.sendStopKeys])) ∧
    Effect.terminate ∉ (stop env true).2.2 := by
  have hstop : stop env true =
      ((stopLoop env.poll 0 30).1, (stopLoop env.poll 0 30).2, [Effect.sendStopKeys]) := by
    simp [stop, hrun, hsend]
  refine ⟨?_, ?_, ?_⟩
  · intro h
    rw [hstop, stopLoop_all_running env.poll 30 0 (fun j hj => by simpa using h j hj)]
  · intro j hj hfalse hbefore
    rw [hstop, stopLoop_first_stop env.poll 30 0 j hj (by simpa using hfalse)
      (fun m hm => by simpa using hbefore m hm)]
  · rw [hstop]; simp

theorem stop_graceful_spec_witness :
    stop ⟨true, true, true, fun _ => true⟩ true =
      (StopOutcome.StopTimeout, 30, [Effect.sendStopKeys]) :=
  (stop_graceful_spec ⟨true, true, true, fun _ => true⟩ rfl rfl).1 (fun _ _ => rfl)

/-! ## Start theorems -/

/-- C2: `start()` returns the already-running failure if the session
exists, else the not-installed failure if `server.jar` is absent;
otherwise it launches, waits the settle interval, re-queries session
existence, and if the session is still absent it returns the fast-crash
failure carrying the last 10 log lines when that tail is non-blank, and
the generic exited-immediately failure when the log file is missing or
its tail is blank. -/
theorem start_spec (env : StartEnv) :
    (env.running = true → start env = .AlreadyRunning) ∧
    (env.running = false → env.jarExists = false → start env = .NotInstalled) ∧
    (env.running = false → env.jarExists = true → env.launchRc = some 0 →
      env.runningAfterSettle = false →
      ((∀ lines, env.logLines = some lines →
          strBlank (String.join (lastTen lines)) = false →
          start env = .CrashedOnStart (lastTen lines)) ∧
       (∀ lines, env.logLines = some lines →
          strBlank (String.join (lastTen lines)) = true →
          start env = .ExitedImmediately) ∧
       (env.logLines = none → start env = .ExitedImmediately))) := by
  refine ⟨fun h => by simp [start, h],
          fun h1 h2 => by simp [start, h1, h2], ?_⟩
  intro h1 h2 h3 h4
  refine ⟨?_, ?_, ?_⟩
  · intro lines h5 h6
    simp [start, h1, h2, h3, h4, h5, h6]
  · intro lines h5 h6
    simp [start, h1, h2, h3, h4, h5, h6]
  · intro h5
    simp [start, h1, h2, h3, h4, h5]

theorem start_spec_witness :
    start ⟨false, true, some 0, false, some []⟩ = StartOutcome.ExitedImmediately :=
  ((start_spec ⟨false, true, some 0, false, some []⟩).2.2 rfl rfl rfl rfl).2.1 []
    rfl (by decide)

/-! ## Backup theorems -/

theorem get_world_folders_eq_nil (entries : List DirEntry)
    (h : ∀ e ∈ entries, e.isDir = false ∨ e.hasLevelDat = false) :
    get_world_folders entries = [] := by
  unfold get_world_folders
  have : entries.filter (fun e => e.isDir && e.hasLevelDat) = [] := by
    rw [List.filter_eq_nil_iff]
    intro e he
    rcases h e he with h1 | h1 <;> simp [h1]
  rw [this]
  rfl

/-- C7: if the server directory contains no immediate subdirectory with a
root-level `level.dat`, `create_backup` returns the no-worlds failure,
writes no archive, and does not create the backup directory (the
`os.makedirs` call comes after the early return). -/
theorem create_backup_no_worlds (entries : List DirEntry)
    (version timestamp : String) (tarOk : Bool)
    (h : ∀ e ∈ entries, e.isDir = false ∨ e.hasLevelDat = false) :
    create_backup entries version timestamp tarOk =
      ((false, "No world folders found to backup"), []) ∧
    BackupEffect.makeBackupDir ∉ (create_backup entries version timestamp tarOk).2 ∧
    (∀ n, BackupEffect.writeArchive n ∉ (create_backup entries version timestamp tarOk).2) := by
  have hw := get_world_folders_eq_nil entries h
  have heq : create_backup entries version timestamp tarOk =
      ((false, "No world folders found to backup"), []) := by
    simp [create_backup, hw]
  refine ⟨heq, by rw [heq]; simp, fun n => by rw [heq]; simp⟩

theorem create_backup_no_worlds_witness :
    create_backup [⟨"plugins", true, false⟩, ⟨"server.jar", false, false⟩]
      "1.21.4" "20260101_120000" true =
      ((false, "No world folders found to backup"), []) :=
  (create_backup_no_worlds [⟨"plugins", true, false⟩, ⟨"server.jar", false, false⟩]
    "1.21.4" "20260101_120000" true (by decide)).1

/-! ## RAM validation theorems -/

/-- C9: an integer RAM value `r` passes the install path's check and is
written by the settings path exactly when `1 ≤ r ≤ 64`; outside that range
the install handler aborts before installing and the settings handler
leaves the configuration unchanged. -/
theorem ram_validation (r : Int) (data : Dict) :
    (handle_install_ram r = .proceed r ↔ (1 ≤ r ∧ r ≤ 64)) ∧
    ((1 ≤ r ∧ r ≤ 64) → handle_settings_ram r data = dset data "ram_gb" (.vInt r)) ∧
    (¬(1 ≤ r ∧ r ≤ 64) →
      handle_install_ram r = .invalidRam ∧ handle_settings_ram r data = data) := by
  refine ⟨?_, ?_, ?_⟩
  · by_cases h : r < 1 ∨ r > 64
    · simp only [handle_install_ram, if_pos h]
      constructor
      · intro hc; cases hc
      · intro hc; omega
    · simp only [handle_install_ram, if_neg h]
      constructor
      · intro _; omega
      · intro _; trivial
  · intro h
    simp [handle_settings_ram, h]
  · intro h
    constructor
    · have : r < 1 ∨ r > 64 := by omega
      simp [handle_install_ram, this]
    · simp [handle_settings_ram, h]

theorem ram_validation_witness :
    handle_install_ram 65 = RamGate.invalidRam ∧ handle_settings_ram 65 [] = [] :=
  (ram_validation 65 []).2.2 (by omega)

/-! ## Retention pruning theorems -/

theorem insertDesc_of_max (a : BFile) (l : List BFile)
    (h : ∀ y ∈ l, descBefore a y = true) : insertDesc a l = a :: l := by
  cases l with
  | nil => rfl
  | cons b t => simp [insertDesc, h b (by simp)]

theorem sortDesc_of_sorted (l : List BFile) (h : SortedDesc l) : sortDesc l = l := by
  induction l with
  | nil => rfl
  | cons a t ih =>
    have hc := List.pairwise_cons.mp h
    rw [sortDesc, ih hc.2, insertDesc_of_max a t hc.1]

theorem take_append_take (A B : List BFile) (k : Nat) :
    (A ++ B.take k).take k = (A ++ B).take k := by
  rw [List.take_append_eq_append_take, List.take_append_eq_append_take,
      List.take_take, Nat.min_eq_left (Nat.sub_le k A.length)]

theorem backupRun_spec (k : Nat) :
    ∀ (cs files : List BFile),
      SortedDesc files →
      cs.Pairwise (fun x y => x.1 < y.1) →
      (∀ f ∈ files, ∀ c ∈ cs, f.1 < c.1) →
      files.length ≤ k →
      backupRun k cs files = (cs.reverse ++ files).take k := by
  intro cs
  induction cs with
  | nil =>
    intro files _ _ _ hlen
    rw [backupRun]
    simp only [List.reverse_nil, List.nil_append]
    exact (List.take_of_length_le hlen).symm
  | cons c rest ih =>
    intro files hsorted hchron hlt hlen
    have hcf : ∀ f ∈ files, descBefore c f = true := by
      intro f hf
      have hlt' : f.1 < c.1 := hlt f hf c (by simp)
      simp [descBefore, hlt']
    have hsorted' : SortedDesc (c :: files) := List.pairwise_cons.mpr ⟨hcf, hsorted⟩
    have hstep : cleanupKept k (c :: files) = (c :: files).take k := by
      unfold cleanupKept
      rw [sortDesc_of_sorted _ hsorted']
    have hchron' := List.pairwise_cons.mp hchron
    have h1 : SortedDesc ((c :: files).take k) :=
      List.Pairwise.sublist (List.take_sublist k (c :: files)) hsorted'
    have h2 : ∀ f ∈ (c :: files).take k, ∀ c' ∈ rest, f.1 < c'.1 := by
      intro f hf c' hc'
      have hf' : f ∈ c :: files := List.take_subset k (c :: files) hf
      rcases List.mem_cons.mp hf' with heq | hf''
      · exact heq ▸ hchron'.1 c' hc'
      · exact hlt f hf'' c' (by simp [hc'])
    have h3 : ((c :: files).take k).length ≤ k := List.length_take_le k (c :: files)
    rw [backupRun, hstep, ih _ h1 hchron'.2 h2 h3, take_append_take,
        List.reverse_cons, List.append_assoc]
    rfl

/-- C6: retention pruning keeps exactly the first `max_backups` archives
after sorting by modification time descending and deletes the rest, so a
run of `N` backup creations (each new archive strictly newer than every
existing one) with `max_backups = k < N` leaves exactly the `k` most
recently created archives — the run starting from an empty backup
directory ends in `cs.reverse.take k`, which has length `k`, and every
surviving archive is strictly newer than every archive that was pruned. -/
theorem backup_retention (k : Nat) (cs : List BFile)
    (hchron : cs.Pairwise (fun x y => x.1 < y.1)) (hk : k < cs.length) :
    backupRun k cs [] = cs.reverse.take k ∧
    (backupRun k cs []).length = k ∧
    (∀ f ∈ backupRun k cs [], ∀ g ∈ cs, g ∉ backupRun k cs [] → g.1 < f.1) := by
  have hmain : backupRun k cs [] = cs.reverse.take k := by
    have h := backupRun_spec k cs [] List.Pairwise.nil hchron
      (by intro f hf; cases hf) (by simp)
    simpa using h
  refine ⟨hmain, ?_, ?_⟩
  · rw [hmain, List.length_take, List.length_reverse]
    omega
  · intro f hf g hg hgn
    rw [hmain] at hf hgn
    have hrev : cs.reverse.Pairwise (fun x y => y.1 < x.1) := by
      rw [List.pairwise_reverse]
      exact hchron
    have hsplit : cs.reverse.take k ++ cs.reverse.drop k = cs.reverse :=
      List.take_append_drop k cs.reverse
    rw [← hsplit] at hrev
    have hpw := List.pairwise_append.mp hrev
    have hg' : g ∈ cs.reverse.drop k := by
      have hmem : g ∈ cs.reverse := List.mem_reverse.mpr hg
      rw [← hsplit] at hmem
      rcases List.mem_append.mp hmem with h | h
      · exact absurd h hgn
      · exact h
    exact hpw.2.2 f hf g hg'

theorem backup_retention_witness :
    backupRun 2 [(1, "backup_a.tar.gz"), (2, "backup_b.tar.gz"), (3, "backup_c.tar.gz")] [] =
      [(3, "backup_c.tar.gz"), (2, "backup_b.tar.gz")] := by
  have h := (backup_retention 2
    [(1, "backup_a.tar.gz"), (2, "backup_b.tar.gz"), (3, "backup_c.tar.gz")]
    (by decide) (by decide)).1
  rw [h]
  rfl

/-! ## Session-detection theorems -/

theorem startsWithChars_iff (n : List Char) : ∀ h : List Char,
    startsWithChars h n = true ↔ ∃ t, h = n ++ t := by
  induction n with
  | nil =>
    intro h
    simp [startsWithChars]
  | cons b bs ih =>
    intro h
    cases h with
    | nil =>
      simp only [startsWithChars, List.cons_append]
      constructor
      · intro hc; cases hc
      · rintro ⟨t, ht⟩; cases ht
    | cons a as =>
      simp only [startsWithChars, Bool.and_eq_true, beq_iff_eq, ih as,
        List.cons_append, List.cons.injEq]
      constructor
      · rintro ⟨rfl, t, rfl⟩; exact ⟨t, rfl, rfl⟩
      · rintro ⟨t, rfl, rfl⟩; exact ⟨rfl, t, rfl⟩

theorem containsChars_iff (n : List Char) : ∀ h : List Char,
    containsChars n h = true ↔ ∃ p t, h = p ++ n ++ t := by
  intro h
  induction h with
  | nil =>
    simp only [containsChars, List.isEmpty_iff]
    constructor
    · intro hn; exact ⟨[], [], by simp [hn]⟩
    · rintro ⟨p, t, ht⟩
      rcases List.append_eq_nil.mp (List.append_eq_nil.mp ht.symm).1 with ⟨_, hn⟩
      exact hn
  | cons c rest ih =>
    rw [containsChars]
    simp only [Bool.or_eq_true, startsWithChars_iff, ih]
    constructor
    · rintro (⟨t, ht⟩ | ⟨p, t, ht⟩)
      · exact ⟨[], t, by simp [ht]⟩
      · exact ⟨c :: p, t, by simp [ht]⟩
    · rintro ⟨p, t, ht⟩
      cases p with
      | nil => exact Or.inl ⟨t, by simpa using ht⟩
      | cons x p' =>
        have ht' := ht
        simp only [List.cons_append, List.cons.injEq] at ht'
        exact Or.inr ⟨p', t, ht'.2⟩

/-- C10: `is_running` returns true exactly when the fixed session name
"minecraft" occurs as a substring of the multiplexer's session-listing
output, and returns false (not an error) when the multiplexer binary is
absent; any listing that merely contains the fixed name as a substring
makes the server count as Running, and this result is what gates the
legality of `start`, `stop` and `send_command`. -/
theorem is_running_substring_spec :
    is_running none = false ∧
    (∀ out : String, is_running (some out) = true ↔
      ∃ p t : List Char, out.data = p ++ sessionName.data ++ t) ∧
    (∀ pre post : String,
      is_running (some (pre ++ sessionName ++ post)) = true) ∧
    (∀ (l : Option String) (e : StartEnv), e.running = is_running l →
      is_running l = true → start e = .AlreadyRunning) ∧
    (∀ (l : Option String) (e : StopEnv) (g : Bool), e.running = is_running l →
      is_running l = false → stop e g = (.NotRunning, 0, [])) ∧
    (∀ (l : Option String) (dOk : Bool) (cmd : String) (h : List String),
      is_running l = false →
      send_command (is_running l) dOk cmd h = (.NotRunning, h)) := by
  refine ⟨rfl, fun out => containsChars_iff sessionName.data out.data, ?_, ?_, ?_, ?_⟩
  · intro pre post
    refine (containsChars_iff sessionName.data _).mpr ⟨pre.data, post.data, ?_⟩
    simp [String.data_append, List.append_assoc]
  · intro l e he h
    simp [start, he, h]
  · intro l e g he h
    simp [stop, he, h]
  · intro l dOk cmd h hrun
    simp [send_command, hrun]

theorem is_running_substring_spec_witness :
    is_running (some ("12345." ++ sessionName ++ "\t(Detached)")) = true ∧
    send_command (is_running none) true "say hi" [] = (CmdOutcome.NotRunning, []) :=
  ⟨is_running_substring_spec.2.2.1 "12345." "\t(Detached)",
   is_running_substring_spec.2.2.2.2.2 none true "say hi" [] rfl⟩

end Mctool
